import Mathlib

/-!
Shallow embedding of the `fstree` path algebra (`fstree/path.py`) and the
tar-archive filename parser (`fstree/tarname.py`).  Path strings and file
names are modelled as `List Char`; path segments as `List Char` as well.
-/

deriving instance DecidableEq for Except

namespace Fstree

/-! ### Path-string constants (`fstree/path.py`, module level) -/

def rootChar : Char := '/'

def sepChar : Char := '/'

def curdir : List Char := ['.']

def pardir : List Char := ['.', '.']

/-! ### The `FSPath` data model

`FSPath` is a tuple subclass in Python carrying the segment tuple plus the
`_absolute` flag and `_parents` count.  We model it as a record. -/

structure FSPath where
  segments : List (List Char)
  isAbsolute : Bool
  parents : Nat
deriving DecidableEq

inductive PathError
  | mismatched
  | notAbsolute
deriving DecidableEq

/-- Model of Python's `str.split('/')`: splits on the separator keeping empty
pieces (so `''.split('/') == ['']`, `'/a'.split('/') == ['', 'a']`). -/
def splitOnSep : List Char → List (List Char)
  | [] => [[]]
  | c :: rest =>
    match splitOnSep rest with
    | [] => [[]]
    | g :: gs => if c = sepChar then [] :: g :: gs else (c :: g) :: gs

/-- One step of the normalization loop in `FSPath.__new__`
(`path.py` lines 70-91): skip empty and `.` elements, pop or retain `..`
elements, append everything else.  The state is the working element list
together with the running `parents` counter. -/
def normStep (absolute : Bool) (st : List (List Char) × Nat) (elem : List Char) :
    List (List Char) × Nat :=
  if elem = [] ∨ elem = curdir then st
  else if elem = pardir then
    if absolute = true ∨ (st.1 ≠ [] ∧ st.1.getLast? ≠ some pardir) then
      (st.1.dropLast, st.2)
    else (st.1 ++ [pardir], st.2 + 1)
  else (st.1 ++ [elem], st.2)

/-- String mode of `FSPath.__new__` (`path.py` lines 60-98): decide
absoluteness and the seed element list from the `relative` argument, then
fold the normalization step over the separated components. -/
def FSPath.parse (path : List Char) (rel : Option FSPath) : FSPath :=
  let startsRoot : Bool := path.head? == some rootChar
  let p : Bool × List (List Char) :=
    match rel with
    | none => (startsRoot, [])
    | some r => if startsRoot then (startsRoot, []) else (true, r.segments)
  let st := (splitOnSep path).foldl (normStep p.1) (p.2, 0)
  ⟨st.1, p.1, st.2⟩

/-- Element-wise common-prefix length of two segment sequences, the length
of `os.path.commonprefix([self, start])` used in `FSPath.relative`
(`path.py` line 192). -/
def commonPrefixLen : List (List Char) → List (List Char) → Nat
  | x :: xs, y :: ys => if x = y then commonPrefixLen xs ys + 1 else 0
  | _, _ => 0

/-- Method `FSPath.relative` (`path.py` lines 169-197): error when exactly one of
the two paths is absolute; otherwise build `..` markers for the part of
`start` beyond the common prefix followed by the target's tail. -/
def FSPath.relative (self start : FSPath) : Except PathError FSPath :=
  if self.isAbsolute ≠ start.isAbsolute then .error .mismatched
  else
    let i := commonPrefixLen self.segments start.segments
    let n := start.segments.length - i
    .ok ⟨List.replicate n pardir ++ self.segments.drop i, false, n⟩

/-- Method `FSPath.absolute` (`path.py` lines 199-224): an absolute path is
returned unchanged; the reference must be absolute; otherwise the last
`parents` reference segments are sliced away (`relative[:-self._parents]`)
and the tail beyond the retained `..` markers is appended. -/
def FSPath.absolute (self reference : FSPath) : Except PathError FSPath :=
  if self.isAbsolute then .ok self
  else if reference.isAbsolute = false then .error .notAbsolute
  else
    let trimmed :=
      if self.parents ≠ 0 then
        reference.segments.take (reference.segments.length - self.parents)
      else reference.segments
    .ok ⟨trimmed ++ self.segments.drop self.parents, true, 0⟩

/-- Property `FSPath.non_absolute` (`path.py` lines 301-312). -/
def FSPath.non_absolute (self : FSPath) : FSPath :=
  if self.isAbsolute then ⟨self.segments, false, 0⟩ else self

/-- The structural invariant claimed for public producers: absolute paths
carry no parent count, `.` never appears, the first `parents` segments are
exactly the `..` markers, and no later segment is `..`. -/
def FSPath.Inv (p : FSPath) : Prop :=
  (p.isAbsolute = true → p.parents = 0) ∧
  curdir ∉ p.segments ∧
  p.segments.take p.parents = List.replicate p.parents pardir ∧
  pardir ∉ p.segments.drop p.parents

instance (p : FSPath) : Decidable p.Inv := by
  unfold FSPath.Inv; infer_instance

/-! ### The tar-archive filename model (`fstree/tarname.py`)

File names are `List Char`.  `os.path.split`, `os.path.splitext` and
`os.path.join` are modelled after CPython's `posixpath`. -/

def extsepChar : Char := '.'

/-- Index of the last occurrence of `c` in `p` (`str.rfind`), or `none`. -/
def rfindIdx (c : Char) : List Char → Option Nat
  | [] => none
  | x :: xs =>
    match rfindIdx c xs with
    | some i => some (i + 1)
    | none => if x = c then some 0 else none

/-- The `filenameIndex` of `posixpath.splitext`: one past the last
separator, `0` when there is none (Python's `sepIndex + 1` with
`sepIndex = -1` for "not found"). -/
def extStart (p : List Char) : Nat :=
  match rfindIdx sepChar p with
  | none => 0
  | some j => j + 1

/-- Model of CPython's `posixpath.splitext`: split off the extension at the last `.` of the
final component, unless every character of the final component before that
dot is itself a dot (leading dots do not start an extension). -/
def splitext (p : List Char) : List Char × List Char :=
  match rfindIdx extsepChar p with
  | none => (p, [])
  | some d =>
    if extStart p ≤ d ∧
        ((p.drop (extStart p)).take (d - extStart p)).any
          (fun ch => ch ≠ extsepChar) then
      (p.take d, p.drop d)
    else (p, [])

/-- Model of CPython's `posixpath.split`: break at the final separator, stripping trailing
separators from the head unless the head is all separators. -/
def osSplit (p : List Char) : List Char × List Char :=
  let i : Nat :=
    match rfindIdx sepChar p with
    | none => 0
    | some j => j + 1
  let head := p.take i
  let tail := p.drop i
  let head' :=
    if head.any (fun c => c ≠ sepChar) then
      (head.reverse.dropWhile (fun c => c == sepChar)).reverse
    else head
  (head', tail)

/-- Model of CPython's `posixpath.join` restricted to two components, as used in
`TarFileName.__init__` (`tarname.py` line 211). -/
def osJoin (a b : List Char) : List Char :=
  if b.head? = some sepChar then b
  else if a = [] ∨ a.getLast? = some sepChar then a ++ b
  else a ++ [sepChar] ++ b

/-- A compression-format descriptor (`tarname.py` `Compression`): name,
support flag and the canonical (first-declared) extension with its dot. -/
structure Compression where
  name : String
  supported : Bool
  extension : List Char
deriving DecidableEq

/-- The seven module-level `Compression(...)` declarations
(`tarname.py` lines 135-141); `six.PY3` is modelled as true. -/
def gz : Compression := ⟨"gz", true, ".gz".toList⟩

def zComp : Compression := ⟨"Z", false, ".Z".toList⟩

def bz2 : Compression := ⟨"bz2", true, ".bz2".toList⟩

def lzComp : Compression := ⟨"lz", false, ".lz".toList⟩

def lzma : Compression := ⟨"lzma", false, ".lzma".toList⟩

def lzo : Compression := ⟨"lzo", false, ".lzo".toList⟩

def xz : Compression := ⟨"xz", true, ".xz".toList⟩

/-- Classmethod `Compression.lookup_compression`: the name registry built by the seven
declarations above. -/
def lookupCompression (name : String) : Option Compression :=
  if name = "gz" then some gz
  else if name = "Z" then some zComp
  else if name = "bz2" then some bz2
  else if name = "lz" then some lzComp
  else if name = "lzma" then some lzma
  else if name = "lzo" then some lzo
  else if name = "xz" then some xz
  else none

/-- One entry of the extension registry.  `compression = none` models the
absence of the `'compression'` key (only the seed `'tar'` entry);
`hasTarExt = false` models the absence of the `'has_tar_ext'` key, which
is only ever stored with value `True`. -/
structure ExtData where
  compression : Option Compression
  hasTarExt : Bool
deriving DecidableEq

/-- Classmethod `Compression.lookup_extension`: looks up `ext[1:]` in the extension
registry built by the seven declarations (first extension plain, the rest
combined with `.tar`). -/
def lookupExtension (ext : List Char) : Option ExtData :=
  let key := ext.drop 1
  if key = "tar".toList then some ⟨none, true⟩
  else if key = "gz".toList then some ⟨some gz, false⟩
  else if key = "tgz".toList then some ⟨some gz, true⟩
  else if key = "taz".toList then some ⟨some gz, true⟩
  else if key = "Z".toList then some ⟨some zComp, false⟩
  else if key = "taZ".toList then some ⟨some zComp, true⟩
  else if key = "bz2".toList then some ⟨some bz2, false⟩
  else if key = "tbz".toList then some ⟨some bz2, true⟩
  else if key = "tbz2".toList then some ⟨some bz2, true⟩
  else if key = "tz2".toList then some ⟨some bz2, true⟩
  else if key = "lz".toList then some ⟨some lzComp, false⟩
  else if key = "lzma".toList then some ⟨some lzma, false⟩
  else if key = "tlz".toList then some ⟨some lzma, true⟩
  else if key = "lzo".toList then some ⟨some lzo, false⟩
  else if key = "xz".toList then some ⟨some xz, false⟩
  else if key = "txz".toList then some ⟨some xz, true⟩
  else none

inductive TarError
  | duplicateCompression
  | conflictingCompression
  | unsupportedCompression
  | missingArchiveSuffix
  | unknownCompression
  | alreadySetCompression
deriving DecidableEq

/-- The `state` dictionary of `TarFileName.__init__`: `compression = none`
models the `utils.unset` sentinel. -/
structure ParseState where
  compression : Option Compression
  hasTarExt : Bool
deriving DecidableEq

/-- Dictionary update `state.update(data)`: a present `'compression'` key overwrites, a
present `'has_tar_ext'` key (always `True`) sets the flag. -/
def updState (st : ParseState) (d : ExtData) : ParseState :=
  ⟨match d.compression with
   | some c => some c
   | none => st.compression,
   st.hasTarExt || d.hasTarExt⟩

/-- The `while not state['has_tar_ext']` loop of `TarFileName.__init__`
(`tarname.py` lines 171-198).  Each iteration strips one recognised
extension, so the basename length strictly decreases; the loop is driven
by a fuel argument that `TarFileName.parse` instantiates with more than
the basename length (`parseLoop_fuel` below shows any such fuel gives the
same result, so the fuel-exhausted branch is unreachable). -/
def parseLoop : Nat → List Char → List (List Char) → ParseState →
    Except TarError (List Char × List (List Char) × ParseState)
  | 0, basename, exts, st => .ok (basename, exts, st)
  | fuel + 1, basename, exts, st =>
    if st.hasTarExt then .ok (basename, exts, st)
    else if (splitext basename).2 = [] then .ok (basename, exts, st)
    else
      match lookupExtension (splitext basename).2 with
      | none => .ok (basename, exts, st)
      | some data =>
        match data.compression with
        | some c =>
          match st.compression with
          | some c0 =>
            if c0 = c then .error .duplicateCompression
            else .error .conflictingCompression
          | none =>
            if c.supported = false then .error .unsupportedCompression
            else parseLoop fuel (splitext basename).1
              ((splitext basename).2 :: exts) (updState st data)
        | none => parseLoop fuel (splitext basename).1
            ((splitext basename).2 :: exts) (updState st data)

/-- A parsed tar file name.  `compressionState = none` models the
`utils.unset` sentinel in `_compression`; `some none` models a stored
falsy value (`None`); `some (some c)` a stored descriptor. -/
structure TarFileName where
  basename : List Char
  extensions : List (List Char)
  compressionState : Option (Option Compression)
deriving DecidableEq

/-- Constructor `TarFileName.__init__` (`tarname.py` lines 154-213): split the
directory part off, run the extension-stripping loop, check that a
detected compression is accompanied by an archive suffix, default the
`.tar` extension, and reassemble the base name. -/
def TarFileName.parse (filename : List Char) : Except TarError TarFileName :=
  match parseLoop ((osSplit filename).2.length + 1) (osSplit filename).2 []
      ⟨none, false⟩ with
  | .error e => .error e
  | .ok (b, exts, st) =>
    if st.compression ≠ none ∧ st.hasTarExt = false then
      .error .missingArchiveSuffix
    else
      .ok ⟨osJoin (osSplit filename).1 b,
        (if st.hasTarExt = false then ".tar".toList :: exts else exts),
        st.compression.map some⟩

/-- Rendering `TarFileName.__str__`: base name plus all extensions in order. -/
def TarFileName.render (t : TarFileName) : List Char :=
  t.basename ++ t.extensions.flatten

/-- The `compression` property getter (`tarname.py` lines 222-229):
`None` when unset, otherwise the stored value. -/
def TarFileName.compression (t : TarFileName) : Option Compression :=
  match t.compressionState with
  | none => none
  | some x => x

/-- Argument forms accepted by the `compression` setter: `None` (falsy), a
scheme name, or a descriptor.  All falsy Python values are modelled by
`nullArg` (the source stores the falsy value itself; the claims only
observe the stored value through the getter, which reports no
compression either way). -/
inductive CompArg
  | nullArg
  | byName (s : String)
  | byDescr (c : Compression)
deriving DecidableEq

/-- Python truthiness of a setter argument (`if compression:`). -/
def CompArg.truthy : CompArg → Bool
  | .nullArg => false
  | .byName s => s ≠ ""
  | .byDescr _ => true

/-- The `compression` property setter (`tarname.py` lines 231-261). -/
def TarFileName.setCompression (t : TarFileName) (arg : CompArg) :
    Except TarError TarFileName :=
  if t.compressionState ≠ none then .error .alreadySetCompression
  else if arg.truthy then
    let c? : Option Compression :=
      match arg with
      | .byDescr c => some c
      | .byName s => lookupCompression s
      | .nullArg => none
    match c? with
    | none => .error .unknownCompression
    | some c =>
      if c.supported = false then .error .unsupportedCompression
      else
        .ok { t with extensions := t.extensions ++ [c.extension],
                     compressionState := some (some c) }
  else .ok { t with compressionState := some none }

/-! ### Lemmas about `commonPrefixLen` -/

theorem commonPrefixLen_le_left (xs ys : List (List Char)) :
    commonPrefixLen xs ys ≤ xs.length := by
  induction xs generalizing ys with
  | nil => cases ys <;> simp [commonPrefixLen]
  | cons x xs ih =>
    cases ys with
    | nil => simp [commonPrefixLen]
    | cons y ys =>
      by_cases h : x = y <;> simp [commonPrefixLen, h]
      exact ih ys

theorem commonPrefixLen_le_right (xs ys : List (List Char)) :
    commonPrefixLen xs ys ≤ ys.length := by
  induction xs generalizing ys with
  | nil => cases ys <;> simp [commonPrefixLen]
  | cons x xs ih =>
    cases ys with
    | nil => simp [commonPrefixLen]
    | cons y ys =>
      by_cases h : x = y <;> simp [commonPrefixLen, h]
      exact ih ys

theorem commonPrefixLen_take_eq (xs ys : List (List Char)) :
    xs.take (commonPrefixLen xs ys) = ys.take (commonPrefixLen xs ys) := by
  induction xs generalizing ys with
  | nil => cases ys <;> simp [commonPrefixLen]
  | cons x xs ih =>
    cases ys with
    | nil => simp [commonPrefixLen]
    | cons y ys =>
      by_cases h : x = y <;> simp [commonPrefixLen, h]
      exact ih ys

theorem commonPrefixLen_append (xs us vs : List (List Char)) :
    commonPrefixLen (xs ++ us) (xs ++ vs) = xs.length + commonPrefixLen us vs := by
  induction xs with
  | nil => simp
  | cons x xs ih =>
    have hstep : commonPrefixLen (x :: (xs ++ us)) (x :: (xs ++ vs))
        = commonPrefixLen (xs ++ us) (xs ++ vs) + 1 := by
      simp [commonPrefixLen]
    simp only [List.cons_append, hstep, ih, List.length_cons]
    omega

theorem commonPrefixLen_eq_zero (us vs : List (List Char))
    (h : us = [] ∨ vs = [] ∨ us.head? ≠ vs.head?) :
    commonPrefixLen us vs = 0 := by
  cases us with
  | nil => cases vs <;> rfl
  | cons u us =>
    cases vs with
    | nil => rfl
    | cons v vs =>
      have hne : u ≠ v := by
        rcases h with h | h | h
        · exact absurd h (by simp)
        · exact absurd h (by simp)
        · intro he; exact h (by simp [he])
      simp [commonPrefixLen, hne]

/-! ### Claim C1 -/

/-- Claim **C1.** For every pair of absolute `FSPath` values `a` and `b`, the
round trip `a.relative(b).absolute(b)` yields a path equal to `a` per
`FSPath` equality semantics: the result is exactly the absolute path with
`a`'s segment sequence (and `a.isAbsolute = true`). -/
theorem c1_relative_absolute_roundtrip (a b : FSPath)
    (ha : a.isAbsolute = true) (hb : b.isAbsolute = true) :
    Except.bind (a.relative b) (fun r => r.absolute b)
      = Except.ok ⟨a.segments, a.isAbsolute, 0⟩ := by
  have hi_b : commonPrefixLen a.segments b.segments ≤ b.segments.length :=
    commonPrefixLen_le_right _ _
  set i := commonPrefixLen a.segments b.segments with hi
  unfold FSPath.relative
  rw [ha, hb]
  simp only [ne_eq, not_true_eq_false, if_false, ite_false, Except.bind]
  unfold FSPath.absolute
  simp only [hb]
  set p := b.segments.length - i with hp
  have htrim :
      (if p ≠ 0 then b.segments.take (b.segments.length - p) else b.segments)
        = b.segments.take i := by
    by_cases hz : p = 0
    · have : i = b.segments.length := by omega
      simp [hz, this, List.take_length]
    · have : b.segments.length - p = i := by omega
      simp [hz, this]
  have hdrop :
      (List.replicate p pardir ++ a.segments.drop i).drop p = a.segments.drop i := by
    have := List.drop_left (List.replicate p pardir) (a.segments.drop i)
    rwa [List.length_replicate] at this
  simp only [ite_false, htrim, hdrop, ha]
  rw [← commonPrefixLen_take_eq, ← hi, List.take_append_drop]
  simp

/-- Witness for C1 at `a = /a/b`, `b = /c`. -/
theorem c1_relative_absolute_roundtrip_witness :
    Except.bind ((FSPath.mk ["a".toList, "b".toList] true 0).relative
        (FSPath.mk ["c".toList] true 0))
      (fun r => r.absolute (FSPath.mk ["c".toList] true 0))
      = Except.ok ⟨["a".toList, "b".toList], true, 0⟩ :=
  c1_relative_absolute_roundtrip (FSPath.mk ["a".toList, "b".toList] true 0)
    (FSPath.mk ["c".toList] true 0) rfl rfl

/-! ### Claim C2 -/

/-- Claim **C2 (amended).** For an absolute `a` and a relative `r` with
`r.parents ≤ a.segments.length` whose leading `parents` segments are the
literal `..` markers, the round trip `r.absolute(a).relative(a)`
reproduces `r` (flag, segments and parent count), *provided* the common
prefix scan stops exactly where the reference was trimmed: either `r` has
no tail beyond its markers, or the reference has no segment at the rejoin
position, or the first tail segment differs from the reference segment it
rejoins.  Without that proviso the scan can absorb a coincidentally equal
segment and return a shorter, merely location-equivalent path
(`c2_counterexample`). -/
theorem c2_absolute_relative_roundtrip (a r : FSPath)
    (ha : a.isAbsolute = true) (hr : r.isAbsolute = false)
    (hp : r.parents ≤ a.segments.length)
    (hmk : r.segments.take r.parents = List.replicate r.parents pardir)
    (hsep : r.segments.drop r.parents = [] ∨
        a.segments.drop (a.segments.length - r.parents) = [] ∨
        (r.segments.drop r.parents).head?
          ≠ (a.segments.drop (a.segments.length - r.parents)).head?) :
    Except.bind (r.absolute a) (fun A => A.relative a)
      = Except.ok ⟨r.segments, r.isAbsolute, r.parents⟩ := by
  have habs : r.absolute a = Except.ok
      ⟨a.segments.take (a.segments.length - r.parents)
        ++ r.segments.drop r.parents, true, 0⟩ := by
    unfold FSPath.absolute
    rw [hr, ha]
    by_cases hz : r.parents = 0
    · simp [hz]
    · simp [hz]
  rw [habs]
  rw [show Except.bind (Except.ok
        (⟨a.segments.take (a.segments.length - r.parents)
          ++ r.segments.drop r.parents, true, 0⟩ : FSPath))
        (fun A => A.relative a)
      = FSPath.relative
        ⟨a.segments.take (a.segments.length - r.parents)
          ++ r.segments.drop r.parents, true, 0⟩ a from rfl]
  unfold FSPath.relative
  rw [ha]
  have hXlen : (a.segments.take (a.segments.length - r.parents)).length
      = a.segments.length - r.parents := by
    rw [List.length_take]; omega
  have hi : commonPrefixLen
      (a.segments.take (a.segments.length - r.parents)
        ++ r.segments.drop r.parents) a.segments
      = a.segments.length - r.parents := by
    have h2 := commonPrefixLen_append
      (a.segments.take (a.segments.length - r.parents))
      (r.segments.drop r.parents)
      (a.segments.drop (a.segments.length - r.parents))
    rw [List.take_append_drop, commonPrefixLen_eq_zero _ _ hsep, hXlen] at h2
    rw [h2]
    omega
  rw [if_neg (by simp)]
  simp only [hi]
  have hpar : a.segments.length - (a.segments.length - r.parents) = r.parents :=
    Nat.sub_sub_self hp
  have hdropA : (a.segments.take (a.segments.length - r.parents)
      ++ r.segments.drop r.parents).drop (a.segments.length - r.parents)
      = r.segments.drop r.parents :=
    List.drop_left' hXlen
  rw [hpar, hdropA, ← hmk, List.take_append_drop, hr]

/-- Claim **C2 counterexample.** With `a = /x/y` and `r = ../y` (both produced
by parsing, `r.parents = 1 ≤ 2`), the round trip resolves to `/x/y` and
relativising that against `a` yields the empty relative path, whose
segment sequence differs from `r`'s `['..', 'y']`. -/
theorem c2_counterexample :
    (FSPath.parse "../y".toList none).isAbsolute = false ∧
    (FSPath.parse "/x/y".toList none).isAbsolute = true ∧
    (FSPath.parse "../y".toList none).parents
      ≤ (FSPath.parse "/x/y".toList none).segments.length ∧
    Except.bind ((FSPath.parse "../y".toList none).absolute
        (FSPath.parse "/x/y".toList none))
      (fun A => A.relative (FSPath.parse "/x/y".toList none))
      = Except.ok ⟨[], false, 0⟩ ∧
    ([] : List (List Char)) ≠ (FSPath.parse "../y".toList none).segments := by
  decide

/-- Witness for C2 at `a = /x`, `r = ../y`. -/
theorem c2_absolute_relative_roundtrip_witness :
    Except.bind ((FSPath.mk [Fstree.pardir, "y".toList] false 1).absolute
        (FSPath.mk ["x".toList] true 0))
      (fun A => A.relative (FSPath.mk ["x".toList] true 0))
      = Except.ok ⟨[Fstree.pardir, "y".toList], false, 1⟩ :=
  c2_absolute_relative_roundtrip (FSPath.mk ["x".toList] true 0)
    (FSPath.mk [Fstree.pardir, "y".toList] false 1)
    rfl rfl (by decide) (by decide) (by decide)

/-! ### Claim C3 -/

/-- Claim **C3 counterexample.** Parsing `"a"` with no reference yields a path
whose `isAbsolute` flag is `false`, not `true` as claimed. -/
theorem c3_counterexample :
    ¬ (FSPath.parse "a".toList none).isAbsolute = true := by
  decide

/-- Claim **C3 (amended).** Parsing a string that does not start with the root
marker with no reference given produces a *relative* path
(`isAbsolute = false`), matching the constructor's own documentation
("If not given, the path will be a relative path"). -/
theorem c3_parse_no_reference_relative (s : List Char)
    (h : s.head? ≠ some rootChar) :
    (FSPath.parse s none).isAbsolute = false := by
  simp only [FSPath.parse]
  simpa using h

/-- Witness for C3 at `s = "a"`. -/
theorem c3_parse_no_reference_relative_witness :
    (FSPath.parse "a".toList none).isAbsolute = false :=
  c3_parse_no_reference_relative "a".toList (by decide)

/-! ### Claim C4 -/

/-- The invariant carried by the working state of the normalization loop:
no `.` element, the first `parents` elements are exactly `..` markers, no
`..` beyond them, and an absolute path accumulates no parent count. -/
def StateInv (ab : Bool) (st : List (List Char) × Nat) : Prop :=
  curdir ∉ st.1 ∧
  st.1.take st.2 = List.replicate st.2 pardir ∧
  pardir ∉ st.1.drop st.2 ∧
  (ab = true → st.2 = 0)

theorem parents_le_length {l : List (List Char)} {p : Nat}
    (ht : l.take p = List.replicate p pardir) : p ≤ l.length := by
  have h := congrArg List.length ht
  simp only [List.length_take, List.length_replicate] at h
  omega

theorem all_pardir_of_drop_nil {l : List (List Char)} {p : Nat}
    (ht : l.take p = List.replicate p pardir) (hd : l.drop p = []) :
    l = List.replicate p pardir := by
  conv_lhs => rw [← List.take_append_drop p l]
  rw [ht, hd, List.append_nil]

theorem normStep_inv (ab : Bool) (st : List (List Char) × Nat)
    (e : List Char) (h : StateInv ab st) : StateInv ab (normStep ab st e) := by
  obtain ⟨l, p⟩ := st
  obtain ⟨hc, ht, hd, habs⟩ := h
  simp only at hc ht hd habs
  unfold normStep
  by_cases h1 : e = [] ∨ e = curdir
  · rw [if_pos h1]; exact ⟨hc, ht, hd, habs⟩
  rw [if_neg h1]
  by_cases h2 : e = pardir
  · rw [if_pos h2]
    by_cases h3 : ab = true ∨ (l ≠ [] ∧ l.getLast? ≠ some pardir)
    · rw [if_pos h3]
      refine ⟨fun hm => hc (List.dropLast_sublist l |>.subset hm), ?_, ?_, habs⟩
      · by_cases hab : ab = true
        · simp [habs hab]
        · have hne := h3.resolve_left hab
          have hdp : l.drop p ≠ [] := by
            intro hdp
            have hl := all_pardir_of_drop_nil ht hdp
            have hp0 : p ≠ 0 := by
              intro hp0
              rw [hp0] at hl
              exact hne.1 (by simpa using hl)
            obtain ⟨k, rfl⟩ := Nat.exists_eq_succ_of_ne_zero hp0
            rw [hl, List.replicate_succ', List.getLast?_concat] at hne
            exact hne.2 rfl
          have hsplit : l.dropLast = l.take p ++ (l.drop p).dropLast := by
            conv_lhs => rw [← List.take_append_drop p l]
            exact List.dropLast_append_of_ne_nil _ hdp
          rw [hsplit, List.take_append_of_le_length (by
              rw [ht, List.length_replicate]), List.take_take,
            Nat.min_self, ht]
      · by_cases hab : ab = true
        · rw [habs hab, List.drop_zero] at hd ⊢
          exact fun hm => hd (List.dropLast_sublist l |>.subset hm)
        · have hne := h3.resolve_left hab
          have hdp : l.drop p ≠ [] := by
            intro hdp
            have hl := all_pardir_of_drop_nil ht hdp
            have hp0 : p ≠ 0 := by
              intro hp0
              rw [hp0] at hl
              exact hne.1 (by simpa using hl)
            obtain ⟨k, rfl⟩ := Nat.exists_eq_succ_of_ne_zero hp0
            rw [hl, List.replicate_succ', List.getLast?_concat] at hne
            exact hne.2 rfl
          have hsplit : l.dropLast = l.take p ++ (l.drop p).dropLast := by
            conv_lhs => rw [← List.take_append_drop p l]
            exact List.dropLast_append_of_ne_nil _ hdp
          have hlen : (l.take p).length = p := by
            rw [ht, List.length_replicate]
          rw [hsplit, List.drop_left' hlen]
          exact fun hm => hd (List.dropLast_sublist _ |>.subset hm)
    · rw [if_neg h3]
      push_neg at h3
      obtain ⟨hab, hrest⟩ := h3
      have hl : l = List.replicate p pardir := by
        by_cases hnil : l = []
        · have : p = 0 := by
            have := parents_le_length ht
            simp [hnil] at this
            omega
          simp [hnil, this]
        · have hlast := hrest hnil
          have hdp : l.drop p = [] := by
            by_contra hdp
            have : l.getLast? = (l.drop p).getLast? := by
              conv_lhs => rw [← List.take_append_drop p l]
              rw [List.getLast?_append]
              cases hx : (l.drop p).getLast? with
              | none => exact absurd (List.getLast?_eq_none_iff.mp hx) hdp
              | some v => rfl
            rw [hlast] at this
            exact hd (List.mem_of_mem_getLast? this.symm)
          exact all_pardir_of_drop_nil ht hdp
      refine ⟨?_, ?_, ?_, ?_⟩
      · intro hm
        rcases List.mem_append.mp hm with hm | hm
        · exact hc hm
        · simp at hm
          exact absurd hm (by decide)
      · rw [hl, ← List.replicate_succ', List.take_replicate, Nat.min_self]
      · rw [hl, ← List.replicate_succ',
          List.drop_eq_nil_of_le (by rw [List.length_replicate])]
        exact List.not_mem_nil pardir
      · intro hab'
        rw [hab'] at hab
        exact absurd rfl hab
  · rw [if_neg h2]
    have hlen : (l.take p).length = p := by
      rw [ht, List.length_replicate]
    have hsplit : l ++ [e] = l.take p ++ (l.drop p ++ [e]) := by
      conv_lhs => rw [← List.take_append_drop p l]
      rw [List.append_assoc]
    refine ⟨?_, ?_, ?_, habs⟩
    · intro hm
      rcases List.mem_append.mp hm with hm | hm
      · exact hc hm
      · simp at hm
        rcases h1 with h1
        push_neg at h1
        exact h1.2 hm.symm
    · rw [hsplit, List.take_left' hlen, ht]
    · rw [hsplit, List.drop_left' hlen]
      intro hm
      rcases List.mem_append.mp hm with hm | hm
      · exact hd hm
      · simp at hm
        exact h2 hm.symm

theorem foldl_normStep_inv (ab : Bool) (L : List (List Char))
    (st : List (List Char) × Nat) (h : StateInv ab st) :
    StateInv ab (L.foldl (normStep ab) st) := by
  induction L generalizing st with
  | nil => exact h
  | cons e L ih => exact ih _ (normStep_inv ab st e h)

theorem inv_of_stateInv {ab : Bool} {st : List (List Char) × Nat}
    (h : StateInv ab st) : (FSPath.mk st.1 ab st.2).Inv :=
  ⟨h.2.2.2, h.1, h.2.1, h.2.2.1⟩

theorem inv_parse_none (s : List Char) : (FSPath.parse s none).Inv := by
  unfold FSPath.parse
  exact inv_of_stateInv (foldl_normStep_inv _ _ _
    ⟨List.not_mem_nil _, by simp, List.not_mem_nil _, fun _ => rfl⟩)

theorem inv_parse_ref (s : List Char) (ref : FSPath)
    (h1 : ref.isAbsolute = true) (h2 : ref.Inv) :
    (FSPath.parse s (some ref)).Inv := by
  unfold FSPath.parse
  by_cases hs : (s.head? == some rootChar) = true
  · simp only [hs]
    exact inv_of_stateInv (foldl_normStep_inv _ _ _
      ⟨List.not_mem_nil _, by simp, List.not_mem_nil _, fun _ => rfl⟩)
  · simp only [Bool.not_eq_true] at hs
    simp only [hs]
    refine inv_of_stateInv (foldl_normStep_inv _ _ _ ⟨h2.2.1, by simp, ?_, fun _ => rfl⟩)
    have := h2.2.2.2
    rw [h2.1 h1, List.drop_zero] at this
    simpa using this

theorem inv_relative (a b res : FSPath) (hia : a.Inv) (hib : b.Inv)
    (hcp : a.parents ≤ commonPrefixLen a.segments b.segments)
    (hok : a.relative b = Except.ok res) : res.Inv := by
  unfold FSPath.relative at hok
  split at hok
  · exact absurd hok (by simp)
  · rw [Except.ok.injEq] at hok
    subst hok
    refine ⟨by simp, ?_, ?_, ?_⟩
    · intro hm
      rcases List.mem_append.mp hm with hm | hm
      · rw [List.mem_replicate] at hm
        exact absurd hm.2 (by decide)
      · exact hia.2.1 (List.drop_subset _ _ hm)
    · exact List.take_left' (List.length_replicate _ _)
    · rw [List.drop_left' (List.length_replicate _ _)]
      intro hm
      have hdd : a.segments.drop (commonPrefixLen a.segments b.segments)
          = (a.segments.drop a.parents).drop
            (commonPrefixLen a.segments b.segments - a.parents) := by
        rw [List.drop_drop]
        congr 1
        omega
      rw [hdd] at hm
      exact hia.2.2.2 (List.drop_subset _ _ hm)

theorem inv_absolute (p ref res : FSPath) (hip : p.Inv) (hiref : ref.Inv)
    (hok : p.absolute ref = Except.ok res) : res.Inv := by
  unfold FSPath.absolute at hok
  split at hok
  · rw [Except.ok.injEq] at hok
    subst hok
    exact hip
  · split at hok
    · exact absurd hok (by simp)
    · rw [Except.ok.injEq] at hok
      subst hok
      rename_i habs hrabs
      have hrefAbs : ref.isAbsolute = true := by
        simpa using hrabs
      have hrefNoPar : pardir ∉ ref.segments := by
        have := hiref.2.2.2
        rw [hiref.1 hrefAbs, List.drop_zero] at this
        exact this
      have hsub : (if p.parents ≠ 0 then
          ref.segments.take (ref.segments.length - p.parents)
          else ref.segments) ⊆ ref.segments := by
        split
        · exact List.take_subset _ _
        · exact fun _ hx => hx
      refine ⟨fun _ => rfl, ?_, by simp, ?_⟩
      · intro hm
        rcases List.mem_append.mp hm with hm | hm
        · exact hiref.2.1 (hsub hm)
        · exact hip.2.1 (List.drop_subset _ _ hm)
      · rw [List.drop_zero]
        intro hm
        rcases List.mem_append.mp hm with hm | hm
        · exact hrefNoPar (hsub hm)
        · exact hip.2.2.2 hm

theorem inv_non_absolute (p : FSPath) (h : p.Inv) : p.non_absolute.Inv := by
  unfold FSPath.non_absolute
  split
  · rename_i habs
    refine ⟨fun _ => rfl, h.2.1, by simp, ?_⟩
    rw [List.drop_zero]
    have := h.2.2.2
    rw [h.1 habs, List.drop_zero] at this
    exact this
  · exact h

/-- Claim **C4 (amended).** The structural invariant (absolute ⇒ no parent
count; `.` never a segment; exactly the first `parentCount` segments are
`..` markers and none later) holds for every path produced by parsing
(with no reference, or with an absolute invariant-satisfying reference),
by `absolute`, by `non_absolute`, and by `relative` *provided* the common
segment prefix covers all of the target's retained parent markers — in
particular whenever both operands are absolute.  Without that proviso
`relative` can emit `..` markers beyond its recorded `parentCount`
(`c4_counterexample`). -/
theorem c4_invariant_producers :
    (∀ s : List Char, (FSPath.parse s none).Inv) ∧
    (∀ (s : List Char) (ref : FSPath), ref.isAbsolute = true → ref.Inv →
        (FSPath.parse s (some ref)).Inv) ∧
    (∀ a b res : FSPath, a.Inv → b.Inv →
        a.parents ≤ commonPrefixLen a.segments b.segments →
        a.relative b = Except.ok res → res.Inv) ∧
    (∀ p ref res : FSPath, p.Inv → ref.Inv →
        p.absolute ref = Except.ok res → res.Inv) ∧
    (∀ p : FSPath, p.Inv → p.non_absolute.Inv) :=
  ⟨inv_parse_none, inv_parse_ref, inv_relative, inv_absolute,
    inv_non_absolute⟩

/-- Claim **C4 counterexample.** Both `FSPath("..")` and `FSPath("x")` are
parser-produced paths satisfying the invariant, yet
`FSPath("..").relative(FSPath("x"))` yields segments `['..', '..']` with
`parentCount = 1`: a `..` marker sits beyond the first `parentCount`
entries, violating the invariant. -/
theorem c4_counterexample :
    (FSPath.parse "..".toList none).Inv ∧
    (FSPath.parse "x".toList none).Inv ∧
    (FSPath.parse "..".toList none).relative (FSPath.parse "x".toList none)
      = Except.ok ⟨[Fstree.pardir, Fstree.pardir], false, 1⟩ ∧
    ¬ (FSPath.mk [Fstree.pardir, Fstree.pardir] false 1).Inv := by
  decide

/-- Witness for C4: the `relative` component applied to the absolute
paths `/a/b/c` and `/a/x`. -/
theorem c4_invariant_producers_witness :
    (FSPath.mk [Fstree.pardir, "b".toList, "c".toList] false 1).Inv :=
  c4_invariant_producers.2.2.1
    (FSPath.mk ["a".toList, "b".toList, "c".toList] true 0)
    (FSPath.mk ["a".toList, "x".toList] true 0)
    (FSPath.mk [Fstree.pardir, "b".toList, "c".toList] false 1)
    (by decide) (by decide) (by decide) (by decide)

/-! ### Claim C5 -/

/-- Claim **C5.** When a relative path's parent count exceeds the absolute
reference's depth, `absolute` raises no error: the slice discards the
whole reference and the result is absolute with exactly the segments of
`r` beyond its leading parent markers. -/
theorem c5_absolute_overflow_truncates (r a : FSPath)
    (hr : r.isAbsolute = false) (ha : a.isAbsolute = true)
    (hp : a.segments.length < r.parents) :
    r.absolute a = Except.ok ⟨r.segments.drop r.parents, true, 0⟩ := by
  unfold FSPath.absolute
  rw [hr, ha]
  have hz : r.parents ≠ 0 := by omega
  have htake : a.segments.length - r.parents = 0 := by omega
  simp [hz, htake]

/-- Witness for C5 at `r = ../../z` (parents 2), `a = /q` (depth 1). -/
theorem c5_absolute_overflow_truncates_witness :
    (FSPath.mk [Fstree.pardir, Fstree.pardir, "z".toList] false 2).absolute
        (FSPath.mk ["q".toList] true 0)
      = Except.ok ⟨["z".toList], true, 0⟩ :=
  c5_absolute_overflow_truncates
    (FSPath.mk [Fstree.pardir, Fstree.pardir, "z".toList] false 2)
    (FSPath.mk ["q".toList] true 0) rfl rfl (by decide)

/-! ### Claim C6 -/

/-- Claim **C6.** `relative` returns the mismatched-path error exactly when one
operand is absolute and the other is not; when the absoluteness flags
agree it succeeds, and the result is always a relative path. -/
theorem c6_relative_mismatch_iff (t s : FSPath) :
    (t.relative s = Except.error PathError.mismatched
        ↔ ¬ t.isAbsolute = s.isAbsolute) ∧
    (t.isAbsolute = s.isAbsolute →
        ∃ res, t.relative s = Except.ok res ∧ res.isAbsolute = false) := by
  unfold FSPath.relative
  by_cases hab : t.isAbsolute = s.isAbsolute
  · rw [if_neg (fun hne => hne hab)]
    exact ⟨by simp [hab], fun _ => ⟨_, rfl, rfl⟩⟩
  · rw [if_pos hab]
    exact ⟨by simp [hab], fun h => absurd h hab⟩

/-- Witness for C6 at two relative paths. -/
theorem c6_relative_mismatch_iff_witness :
    ∃ res, (FSPath.mk [] false 0).relative (FSPath.mk [] false 0)
        = Except.ok res ∧ res.isAbsolute = false :=
  (c6_relative_mismatch_iff (FSPath.mk [] false 0) (FSPath.mk [] false 0)).2 rfl

/-! ### Adequacy of the parse-loop fuel -/

theorem rfindIdx_lt (c : Char) (p : List Char) (i : Nat)
    (h : rfindIdx c p = some i) : i < p.length := by
  induction p generalizing i with
  | nil => simp [rfindIdx] at h
  | cons x xs ih =>
    unfold rfindIdx at h
    cases hx : rfindIdx c xs with
    | some j =>
      rw [hx] at h
      simp only [Option.some.injEq] at h
      subst h
      exact Nat.succ_lt_succ (ih j hx)
    | none =>
      rw [hx] at h
      by_cases hc : x = c
      · rw [if_pos hc] at h
        simp only [Option.some.injEq] at h
        subst h
        simp
      · rw [if_neg hc] at h
        exact absurd h (by simp)

theorem splitext_shrink (p : List Char) (h : (splitext p).2 ≠ []) :
    (splitext p).1.length < p.length := by
  unfold splitext at h ⊢
  split at h
  · exact absurd rfl h
  · rename_i d heq
    have hdlt := rfindIdx_lt extsepChar p d heq
    split at h
    · rename_i hcond
      split
      · simp only [List.length_take]
        omega
      · rename_i hncond
        exact absurd hcond hncond
    · exact absurd rfl h

/-- The fuel `TarFileName.parse` hands to `parseLoop` is irrelevant as
long as it exceeds the basename length: every iteration strips a
non-empty extension, so the basename shrinks and the fuel-exhausted
branch is never taken. -/
theorem parseLoop_fuel (f₁ f₂ : Nat) (b : List Char)
    (exts : List (List Char)) (st : ParseState)
    (h₁ : b.length < f₁) (h₂ : b.length < f₂) :
    parseLoop f₁ b exts st = parseLoop f₂ b exts st := by
  induction f₁ generalizing f₂ b exts st with
  | zero => omega
  | succ f ih =>
    cases f₂ with
    | zero => omega
    | succ g =>
      unfold parseLoop
      split
      · rfl
      · split
        · rfl
        · rename_i hext
          have hshrink := splitext_shrink b hext
          split
          · rfl
          · split
            · split
              · rfl
              · split
                · rfl
                · exact ih g _ _ _ (by omega) (by omega)
            · exact ih g _ _ _ (by omega) (by omega)

/-! ### Claim C7 -/

/-- Claim **C7.** Parsing `archive.tar.gz` succeeds with base name `archive`,
extensions `['.tar', '.gz']` in that order, and the gzip descriptor as
compression; rendering the result reproduces `archive.tar.gz`, and the
`compression` getter reports the gzip descriptor. -/
theorem c7_archive_tar_gz_parse :
    TarFileName.parse "archive.tar.gz".toList
      = Except.ok ⟨"archive".toList, [".tar".toList, ".gz".toList],
          some (some gz)⟩ ∧
    (TarFileName.mk "archive".toList [".tar".toList, ".gz".toList]
        (some (some gz))).render = "archive.tar.gz".toList ∧
    (TarFileName.mk "archive".toList [".tar".toList, ".gz".toList]
        (some (some gz))).compression = some gz := by
  decide

/-! ### Claim C8 -/

/-- Claim **C8.** Whenever the extension-stripping loop finishes with a
compression recorded but the archive-suffix flag never set, parsing the
filename fails with the missing-archive-suffix error (and produces no
value). -/
theorem c8_missing_archive_suffix (fn b : List Char)
    (exts : List (List Char)) (st : ParseState)
    (hloop : parseLoop ((osSplit fn).2.length + 1) (osSplit fn).2 []
        ⟨none, false⟩ = Except.ok (b, exts, st))
    (hcomp : st.compression ≠ none) (htar : st.hasTarExt = false) :
    TarFileName.parse fn = Except.error TarError.missingArchiveSuffix := by
  unfold TarFileName.parse
  rw [hloop]
  simp [hcomp, htar]

/-- Witness for C8 at `archive.gz`. -/
theorem c8_missing_archive_suffix_witness :
    TarFileName.parse "archive.gz".toList
      = Except.error TarError.missingArchiveSuffix :=
  c8_missing_archive_suffix "archive.gz".toList "archive".toList
    [".gz".toList] ⟨some gz, false⟩ (by decide) (by decide) rfl

/-! ### Claim C9 -/

/-- Claim **C9.** Setting the compression of a parsed name whose compression is
unset: an unknown scheme name errors, an unsupported scheme errors (by
descriptor or by name), a supported scheme appends its canonical
extension and records the descriptor; and once the compression field is
no longer unset, every further assignment errors with the
already-set-compression error. -/
theorem c9_set_compression (t : TarFileName)
    (h : t.compressionState = none) :
    (∀ s : String, s ≠ "" → lookupCompression s = none →
        t.setCompression (CompArg.byName s)
          = Except.error TarError.unknownCompression) ∧
    (∀ c : Compression, c.supported = false →
        t.setCompression (CompArg.byDescr c)
          = Except.error TarError.unsupportedCompression) ∧
    (∀ (s : String) (c : Compression), lookupCompression s = some c →
        c.supported = false →
        t.setCompression (CompArg.byName s)
          = Except.error TarError.unsupportedCompression) ∧
    (∀ c : Compression, c.supported = true →
        t.setCompression (CompArg.byDescr c)
          = Except.ok { t with extensions := t.extensions ++ [c.extension],
                               compressionState := some (some c) }) ∧
    (∀ (s : String) (c : Compression), lookupCompression s = some c →
        c.supported = true →
        t.setCompression (CompArg.byName s)
          = Except.ok { t with extensions := t.extensions ++ [c.extension],
                               compressionState := some (some c) }) ∧
    (∀ (t' : TarFileName) (a : CompArg), t'.compressionState ≠ none →
        t'.setCompression a = Except.error TarError.alreadySetCompression) := by
  refine ⟨?_, ?_, ?_, ?_, ?_, ?_⟩
  · intro s hs hlook
    simp [TarFileName.setCompression, CompArg.truthy, h, hs, hlook]
  · intro c hsup
    simp [TarFileName.setCompression, CompArg.truthy, h, hsup]
  · intro s c hlook hsup
    have hs : s ≠ "" := by
      rintro rfl
      simp [lookupCompression] at hlook
    simp [TarFileName.setCompression, CompArg.truthy, h, hlook, hsup, hs]
  · intro c hsup
    simp [TarFileName.setCompression, CompArg.truthy, h, hsup]
  · intro s c hlook hsup
    have hs : s ≠ "" := by
      rintro rfl
      simp [lookupCompression] at hlook
    simp [TarFileName.setCompression, CompArg.truthy, h, hlook, hsup, hs]
  · intro t' a ha
    simp [TarFileName.setCompression, ha]

/-- Witness for C9: set gzip on a freshly parsed `archive.tar`, render
`archive.tar.gz`, and fail on a second set. -/
theorem c9_set_compression_witness :
    TarFileName.parse "archive.tar".toList
      = Except.ok ⟨"archive".toList, [".tar".toList], none⟩ ∧
    (TarFileName.mk "archive".toList [".tar".toList] none).setCompression
        (CompArg.byName "gz")
      = Except.ok ⟨"archive".toList, [".tar".toList, ".gz".toList],
          some (some gz)⟩ ∧
    (TarFileName.mk "archive".toList [".tar".toList, ".gz".toList]
        (some (some gz))).render = "archive.tar.gz".toList ∧
    (TarFileName.mk "archive".toList [".tar".toList, ".gz".toList]
        (some (some gz))).setCompression (CompArg.byName "gz")
      = Except.error TarError.alreadySetCompression := by
  refine ⟨by decide, ?_, by decide, ?_⟩
  · exact (c9_set_compression
      (TarFileName.mk "archive".toList [".tar".toList] none) rfl).2.2.2.2.1
      "gz" gz rfl rfl
  · exact (c9_set_compression
      (TarFileName.mk "archive".toList [".tar".toList] none) rfl).2.2.2.2.2
      (TarFileName.mk "archive".toList [".tar".toList, ".gz".toList]
        (some (some gz)))
      (CompArg.byName "gz") (by simp)

/-! ### Claim C10 -/

/-- Claim **C10.** Assigning a falsy value (Python `None`) to the compression
of a name whose compression is unset performs no validation and succeeds:
the extensions list is unchanged, an explicit no-compression state is
recorded, the getter subsequently reports no compression, yet every later
assignment fails with the already-set-compression error. -/
theorem c10_set_falsy (t : TarFileName) (h : t.compressionState = none) :
    t.setCompression CompArg.nullArg
      = Except.ok { t with compressionState := some none } ∧
    TarFileName.compression { t with compressionState := some none }
      = none ∧
    (∀ a : CompArg,
        TarFileName.setCompression { t with compressionState := some none } a
          = Except.error TarError.alreadySetCompression) := by
  refine ⟨?_, rfl, ?_⟩
  · simp [TarFileName.setCompression, CompArg.truthy, h]
  · intro a
    simp [TarFileName.setCompression]

/-- Witness for C10 on a freshly parsed `archive.tar`. -/
theorem c10_set_falsy_witness :
    (TarFileName.mk "archive".toList [".tar".toList] none).setCompression
        CompArg.nullArg
      = Except.ok ⟨"archive".toList, [".tar".toList], some none⟩ ∧
    (TarFileName.mk "archive".toList [".tar".toList] (some none)).compression
      = none ∧
    (TarFileName.mk "archive".toList [".tar".toList]
        (some none)).setCompression (CompArg.byName "gz")
      = Except.error TarError.alreadySetCompression := by
  obtain ⟨h1, h2, h3⟩ := c10_set_falsy
    (TarFileName.mk "archive".toList [".tar".toList] none) rfl
  exact ⟨h1, h2, h3 (CompArg.byName "gz")⟩

end Fstree
